import Mathlib

/-!
Shallow embedding of the FIGlet font import/deduplication engine
(`figlet_font_importer.py`) and verification of its specification.

Paths are modelled as strings (full path = directory ++ "/" ++ name).
The destination tree is a list of (path, content-digest) pairs; the
digest-to-path index is an association list looked up front-to-back,
matching Python dict semantics for the access patterns the program uses
(keys are only inserted when absent).
-/

namespace FigletImporter

/-! ### Decimal rendering: the Python format string `{n:02d}` -/

/-- The ASCII character of a decimal digit `d < 10`. -/
def digitChar (d : Nat) : Char := Char.ofNat (48 + d)

/-- Big-endian decimal digits of `n`, with explicit fuel (the loop divides
by 10, so fuel `n + 1` always suffices). -/
def decDigitsAux : Nat → Nat → List Char
  | 0, _ => []
  | fuel + 1, n =>
    if n < 10 then [digitChar n]
    else decDigitsAux fuel (n / 10) ++ [digitChar (n % 10)]

/-- Big-endian decimal digits of `n` (`0` renders as `"0"`). -/
def decDigits (n : Nat) : List Char := decDigitsAux (n + 1) n

/-- `{n:02d}`: decimal, left-padded with `'0'` to width two. -/
def pad2List (n : Nat) : List Char :=
  if n < 10 then '0' :: decDigits n else decDigits n

/-- `{n:02d}` as a string. -/
def pad2 (n : Nat) : String := ⟨pad2List n⟩

/-- Reads a decimal digit string back to a number; left inverse of the
renderers, used to prove them injective. -/
def decValue (l : List Char) : Nat :=
  l.foldl (fun a c => 10 * a + (c.toNat - 48)) 0

/-! ### Path and filename utilities -/

/-- `dir / name` for string paths. -/
def pathJoin (dir name : String) : String := dir ++ "/" ++ name

/-- Index of the last `'.'` of a character list, if any. -/
def rfindDot : List Char → Option Nat
  | [] => none
  | c :: rest =>
    match rfindDot rest with
    | some i => some (i + 1)
    | none => if c = '.' then some 0 else none

/-- Python `Path(name).stem` and `Path(name).suffix`: split at the last
dot, provided the dot is neither the first nor the last character;
otherwise the stem is the whole name and the suffix empty. -/
def splitStemExt (name : String) : String × String :=
  let cs := name.data
  match rfindDot cs with
  | some i =>
    if 0 < i ∧ i < cs.length - 1 then (⟨cs.take i⟩, ⟨cs.drop i⟩)
    else (name, "")
  | none => (name, "")

/-- Lower-case a string character by character (Python `str.lower` on the
ASCII extensions this program compares). -/
def lowerStr (s : String) : String := ⟨s.data.map Char.toLower⟩

/-- `f"{stem}_v{n:02d}{ext}"`. -/
def versionedName (stem : String) (n : Nat) (ext : String) : String :=
  stem ++ "_v" ++ pad2 n ++ ext

/-! ### `next_versioned_name`

The source scans `n = 2, 3, ...` with a `while True` loop until
`out_target_dir / f"{stem}_v{n:02d}{ext}"` does not exist.  The embedding
replaces the unbounded loop by explicit fuel; `fs.length + 1` attempts
always suffice because the existing paths are finite and the candidate
names are pairwise distinct (proved below), so the fuel branch is
unreachable and the definition computes exactly what the loop computes. -/

def nextVersionedFrom (fs : List String) (dir stem ext : String) : Nat → Nat → String
  | 0, n => versionedName stem n ext
  | fuel + 1, n =>
    let c := versionedName stem n ext
    if pathJoin dir c ∈ fs then nextVersionedFrom fs dir stem ext fuel (n + 1) else c

/-- `next_versioned_name(out_target_dir, stem, ext)`; `fs` is the list of
paths that currently exist. -/
def next_versioned_name (fs : List String) (dir stem ext : String) : String :=
  nextVersionedFrom fs dir stem ext (fs.length + 1) 2

/-! ### The placement planner -/

/-- The `action` component of `plan_destination`'s result. -/
inductive Action
  | COPY
  | COPY_RENAMED
  | SKIP_DUPLICATE
deriving DecidableEq, Repr

/-- `plan_destination(out_target_dir, src_name, src_hash, existing_hash_to_path)`.
`fs` is the list of paths that exist on disk at the moment of the call (the
source consults it through `Path.exists`); `index` is the digest-to-path
table.  Returns `(dest_path_or_none, action, name_conflict, content_duplicate)`. -/
def plan_destination (fs : List String) (out_target_dir src_name src_hash : String)
    (index : List (String × String)) : Option String × Action × Bool × Bool :=
  if (index.lookup src_hash).isSome then
    (none, .SKIP_DUPLICATE, false, true)
  else
    let stem := (splitStemExt src_name).1
    let suf := (splitStemExt src_name).2
    let ext := if suf = "" then ".flf" else suf
    let candidate := pathJoin out_target_dir (stem ++ ext)
    if candidate ∈ fs then
      (some (pathJoin out_target_dir (next_versioned_name fs out_target_dir stem ext)),
        .COPY_RENAMED, true, false)
    else
      (some candidate, .COPY, false, false)

/-! ### The import executor -/

/-- The `action` field of a JSONL audit record. -/
inductive AuditAction
  | A_COPY
  | A_COPY_RENAMED
  | A_SKIP_DUPLICATE
  | A_ERROR_HASH
  | A_ERROR_COPY
deriving DecidableEq, Repr

/-- One JSONL audit record (the fields the claims are about). -/
structure AuditRecord where
  input : String
  action : AuditAction
  dest : Option String
  error : Option String
deriving DecidableEq, Repr

/-- One input candidate as the executor sees it.  `hashResult` models
`xxhash_file` (`.error e` = the call raises, `.ok h` = the digest);
`copyError` models `shutil.copy2` (`some e` = the call raises). -/
structure InFile where
  name : String
  hashResult : Except String String
  copyError : Option String
deriving Repr

/-- The executor's state: destination tree (path, digest), the mutable
digest-to-path index, the (path, digest) pairs written by this run
(most recent first), and the three counters. -/
structure RunState where
  fs : List (String × String)
  index : List (String × String)
  placed : List (String × String)
  copied : Nat
  renamed : Nat
  skipped : Nat
deriving Repr

/-- One iteration of the `for src in in_files` loop of `process_inputs`:
returns the new state and the audit record written for this candidate. -/
def step (out_target_dir : String) (st : RunState) (src : InFile) :
    RunState × AuditRecord :=
  match src.hashResult with
  | .error e => (st, ⟨src.name, .A_ERROR_HASH, none, some e⟩)
  | .ok h =>
    match plan_destination (st.fs.map Prod.fst) out_target_dir src.name h st.index with
    | (_, .SKIP_DUPLICATE, _, _) =>
      ({ st with skipped := st.skipped + 1 }, ⟨src.name, .A_SKIP_DUPLICATE, none, none⟩)
    | (none, _, _, _) =>
      -- unreachable: the planner returns a path for every non-skip action
      -- (the source expresses this with `assert dest is not None`)
      (st, ⟨src.name, .A_ERROR_COPY, none, some "assertion"⟩)
    | (some dest, act, _, _) =>
      match src.copyError with
      | some e => (st, ⟨src.name, .A_ERROR_COPY, none, some e⟩)
      | none =>
        let st' : RunState :=
          { st with
            fs := (dest, h) :: st.fs
            index := (h, dest) :: st.index
            placed := (dest, h) :: st.placed }
        match act with
        | .COPY =>
          ({ st' with copied := st'.copied + 1 }, ⟨src.name, .A_COPY, some dest, none⟩)
        | _ =>
          ({ st' with renamed := st'.renamed + 1 },
            ⟨src.name, .A_COPY_RENAMED, some dest, none⟩)

/-- `process_inputs`: fold `step` over the candidate list, collecting the
audit records in processing order. -/
def process_inputs (out_target_dir : String) (st : RunState) :
    List InFile → RunState × List AuditRecord
  | [] => (st, [])
  | f :: rest =>
    let s := step out_target_dir st f
    let r := process_inputs out_target_dir s.1 rest
    (r.1, s.2 :: r.2)

/-! ### `index_existing` -/

/-- The loop body of `index_existing`: each destination file is a pair
(path, hash result), `none` modelling a file `xxhash_file` fails on
(warned about and excluded).  `setdefault` inserts only when the digest is
not yet a key, so the first file encountered with a digest wins. -/
def index_fold (idx : List (String × String)) :
    List (String × Option String) → List (String × String)
  | [] => idx
  | (_, none) :: rest => index_fold idx rest
  | (p, some h) :: rest =>
    if (idx.lookup h).isSome then index_fold idx rest
    else index_fold (idx ++ [(h, p)]) rest

/-- `index_existing`: walk the destination files in order and build the
digest-to-path table with first-wins semantics. -/
def index_existing (files : List (String × Option String)) : List (String × String) :=
  index_fold [] files

/-! ### A whole run (`main`'s processing phase) -/

/-- The executor's initial state for a run over destination tree `fs0`
with initial index `idx0`. -/
def initState (fs0 idx0 : List (String × String)) : RunState :=
  ⟨fs0, idx0, [], 0, 0, 0⟩

/-- One run of the engine: index the existing destination tree (every file
hashes successfully since its digest is recorded in `fs0`), then process
the inputs. -/
def run (out_target_dir : String) (fs0 : List (String × String))
    (inputs : List InFile) : RunState × List AuditRecord :=
  process_inputs out_target_dir
    (initState fs0 (index_existing (fs0.map fun e => (e.1, some e.2)))) inputs

/-! ### `main`'s validation and exit behaviour -/

/-- The explicit `sys.exit(2)` conditions of `main`: it validates only
that `--in` is a directory and that the two roots differ; `--out` is
never validated (it is created with `mkdir(parents=True, exist_ok=True)`). -/
def code_aborts (inIsDir samePath : Bool) : Bool := !inIsDir || samePath

/-- `main` as the claims see it: `none` = error exit before any file is
processed, `some (copied, renamed, skipped)` = the reported summary.
`outIsDir` records whether the destination root is an existing directory;
the source never consults it, which is the point of claim C5. -/
def main_run (inIsDir outIsDir samePath : Bool) (out_target_dir : String)
    (fs0 : List (String × String)) (inputs : List InFile) : Option (Nat × Nat × Nat) :=
  if !inIsDir then none
  else if samePath then none
  else
    let st := (run out_target_dir fs0 inputs).1
    some (st.copied, st.renamed, st.skipped)

/-- Transcribed from the spec sentence "non-zero/error termination if
source or destination roots are invalid or identical", for comparison
with `code_aborts`. -/
def spec_abort_condition (inIsDir outIsDir samePath : Bool) : Bool :=
  !inIsDir || !outIsDir || samePath

/-! ### `iter_font_files` (source enumeration)

For the enumeration claims a path is its list of components, so that
`Path.is_relative_to` is the component-prefix test.  An entry of the walk
is a path together with its `is_file` answer. -/

/-- `p.is_relative_to(base)` on resolved component paths. -/
def is_relative_to (p base : List String) : Bool := base.isPrefixOf p

/-- `_is_allowed_font`: a regular file whose lower-cased suffix is `.flf`
or `.tlf`. -/
def is_allowed_font (isFile : Bool) (name : String) : Bool :=
  isFile && (let ext := lowerStr (splitStemExt name).2
             ext = ".flf" || ext = ".tlf")

/-- `iter_font_files`: filter the walked entries, first dropping anything
under `exclude_subtree`, then keeping allow-listed font files. -/
def iter_font_files (entries : List (List String × Bool))
    (exclude_subtree : Option (List String)) : List (List String) :=
  entries.filterMap fun e =>
    if (match exclude_subtree with
        | some ex => is_relative_to e.1 ex
        | none => false) then none
    else if is_allowed_font e.2 (e.1.getLastD "") then some e.1 else none

/-- `main`'s computation of `exclude_subtree`: the destination root, when
scanning recursively and the destination lies inside the source. -/
def main_exclude (recursive : Bool) (in_dir out_dir : List String) :
    Option (List String) :=
  if recursive && is_relative_to out_dir in_dir then some out_dir else none

/-! ## Helper lemmas -/

/-- The rendered digit of `d < 10` is the ASCII character `48 + d`. -/
theorem digitChar_toNat : ∀ d < 10, (digitChar d).toNat = 48 + d := by decide

/-- Folding the digit-reading step over a rendered number recovers the
number (generalised over the accumulator). -/
theorem foldl_decDigitsAux (fuel : Nat) :
    ∀ n, n < fuel → ∀ acc : Nat,
      (decDigitsAux fuel n).foldl (fun a c => 10 * a + (c.toNat - 48)) acc
        = acc * 10 ^ (decDigitsAux fuel n).length + n := by
  induction fuel with
  | zero => intro n hn; omega
  | succ fuel ih =>
    intro n hn acc
    by_cases h10 : n < 10
    · simp [decDigitsAux, h10, digitChar_toNat n h10]; ring
    · have hd : n / 10 < fuel := by
        have := Nat.div_lt_self (by omega : 0 < n) (by omega : 1 < 10)
        omega
      simp only [decDigitsAux, if_neg h10, List.foldl_append, List.length_append,
        List.foldl_cons, List.foldl_nil, List.length_cons, List.length_nil]
      rw [ih (n / 10) hd acc]
      have hm : (digitChar (n % 10)).toNat = 48 + n % 10 :=
        digitChar_toNat _ (Nat.mod_lt _ (by omega))
      rw [hm]
      have := Nat.div_add_mod n 10
      ring_nf
      omega

/-- `decValue` reads back `decDigits`. -/
theorem decValue_decDigits (n : Nat) : decValue (decDigits n) = n := by
  have := foldl_decDigitsAux (n + 1) n (Nat.lt_succ_self n) 0
  simpa [decValue, decDigits] using this

/-- `decValue` reads back `pad2List`: the pad character contributes `0`. -/
theorem decValue_pad2List (n : Nat) : decValue (pad2List n) = n := by
  by_cases h : n < 10
  · have h0 : decValue ('0' :: decDigits n) = decValue (decDigits n) := by
      simp [decValue]
    simp [pad2List, h, h0, decValue_decDigits]
  · simp [pad2List, h, decValue_decDigits]

/-- `{n:02d}` is injective. -/
theorem pad2_injective : Function.Injective pad2 := by
  intro a b hab
  have h1 : pad2List a = pad2List b := congrArg String.data hab
  have h2 := congrArg decValue h1
  simpa [decValue_pad2List] using h2

/-- Distinct version numbers give distinct versioned names. -/
theorem versionedName_inj {stem ext : String} {m n : Nat}
    (h : versionedName stem m ext = versionedName stem n ext) : m = n := by
  have hd : (versionedName stem m ext).data = (versionedName stem n ext).data :=
    congrArg String.data h
  simp only [versionedName, String.data_append] at hd
  have h2 : (pad2 m).data = (pad2 n).data :=
    List.append_cancel_left (List.append_cancel_right hd)
  exact pad2_injective (congrArg String.mk h2)

/-- Joining distinct names to one directory gives distinct paths. -/
theorem pathJoin_inj {dir a b : String} (h : pathJoin dir a = pathJoin dir b) :
    a = b := by
  have hd := congrArg String.data h
  simp only [pathJoin, String.data_append] at hd
  exact congrArg String.mk (List.append_cancel_left hd)

/-- The fuel search returns the first free candidate, provided one exists
within the fuel. -/
theorem nextVersionedFrom_spec (fs : List String) (dir stem ext : String) :
    ∀ fuel start, (∃ k < fuel, pathJoin dir (versionedName stem (start + k) ext) ∉ fs) →
    ∃ k < fuel, nextVersionedFrom fs dir stem ext fuel start = versionedName stem (start + k) ext ∧
      pathJoin dir (versionedName stem (start + k) ext) ∉ fs ∧
      ∀ j < k, pathJoin dir (versionedName stem (start + j) ext) ∈ fs := by
  intro fuel
  induction fuel with
  | zero => intro start ⟨k, hk, _⟩; omega
  | succ fuel ih =>
    intro start ⟨k, hk, hfree⟩
    by_cases hmem : pathJoin dir (versionedName stem start ext) ∈ fs
    · have hk0 : k ≠ 0 := by rintro rfl; simp at hfree; exact hfree hmem
      have hex : ∃ k < fuel, pathJoin dir (versionedName stem (start + 1 + k) ext) ∉ fs := by
        refine ⟨k - 1, by omega, ?_⟩
        have h1 : start + 1 + (k - 1) = start + k := by omega
        rw [h1]; exact hfree
      obtain ⟨k', hk', heq, hf', hall⟩ := ih (start + 1) hex
      refine ⟨k' + 1, by omega, ?_, ?_, ?_⟩
      · simp only [nextVersionedFrom, if_pos hmem]
        have h1 : start + (k' + 1) = start + 1 + k' := by omega
        rw [h1]; exact heq
      · have h1 : start + (k' + 1) = start + 1 + k' := by omega
        rw [h1]; exact hf'
      · intro j hj
        cases j with
        | zero => simpa using hmem
        | succ j =>
          have h1 : start + (j + 1) = start + 1 + j := by omega
          rw [h1]; exact hall j (by omega)
    · exact ⟨0, by omega, by simp [nextVersionedFrom, hmem], by simpa using hmem,
        by omega⟩

/-- Pigeonhole: among `fs.length + 1` distinct candidate names at least
one is not an existing path. -/
theorem exists_free_candidate (fs : List String) (dir stem ext : String) :
    ∃ k ≤ fs.length, pathJoin dir (versionedName stem (2 + k) ext) ∉ fs := by
  by_contra hall
  push_neg at hall
  have hinj : Set.InjOn (fun k => pathJoin dir (versionedName stem (2 + k) ext))
      (Finset.range (fs.length + 1)) := by
    intro a _ b _ hab
    have := versionedName_inj (pathJoin_inj hab)
    omega
  have hsub : ∀ k ∈ Finset.range (fs.length + 1),
      (fun k => pathJoin dir (versionedName stem (2 + k) ext)) k ∈ fs.toFinset := by
    intro k hk
    simp only [Finset.mem_range] at hk
    simp only [List.mem_toFinset]
    exact hall k (by omega)
  have hcard := Finset.card_le_card_of_injOn _ hsub hinj
  simp only [Finset.card_range] at hcard
  have := fs.toFinset_card_le
  omega

/-- `next_versioned_name` returns `{stem}_v{n:02d}{ext}` for the least
`n ≥ 2` whose joined path is free; in particular the result is always a
free name (the `while` loop always terminates at the first free name). -/
theorem next_versioned_spec (fs : List String) (dir stem ext : String) :
    ∃ n, 2 ≤ n ∧ next_versioned_name fs dir stem ext = versionedName stem n ext ∧
      pathJoin dir (versionedName stem n ext) ∉ fs ∧
      ∀ m, 2 ≤ m → m < n → pathJoin dir (versionedName stem m ext) ∈ fs := by
  obtain ⟨k, hk, hfree⟩ := exists_free_candidate fs dir stem ext
  obtain ⟨k', hk', heq, hf', hall⟩ := nextVersionedFrom_spec fs dir stem ext
    (fs.length + 1) 2 ⟨k, by omega, hfree⟩
  refine ⟨2 + k', by omega, heq, hf', ?_⟩
  intro m hm2 hmlt
  have h1 : m = 2 + (m - 2) := by omega
  rw [h1]
  exact hall (m - 2) (by omega)

/-- The path chosen by `next_versioned_name` does not exist. -/
theorem next_versioned_fresh (fs : List String) (dir stem ext : String) :
    pathJoin dir (next_versioned_name fs dir stem ext) ∉ fs := by
  obtain ⟨n, _, heq, hf, _⟩ := next_versioned_spec fs dir stem ext
  rw [heq]; exact hf

/-- The planner skips exactly the candidates whose digest is a key of the
index, returning no destination path. -/
theorem plan_skip (fs : List String) (dir name h : String)
    (idx : List (String × String)) (hh : (idx.lookup h).isSome) :
    plan_destination fs dir name h idx = (none, .SKIP_DUPLICATE, false, true) := by
  simp [plan_destination, hh]

/-- When the digest is new, the planner returns a destination path that
does not yet exist, with action `COPY` or `COPY_RENAMED`. -/
theorem plan_not_dup (fs : List String) (dir name h : String)
    (idx : List (String × String)) (hh : idx.lookup h = none) :
    ∃ dest act nc, plan_destination fs dir name h idx = (some dest, act, nc, false) ∧
      (act = .COPY ∨ act = .COPY_RENAMED) ∧ dest ∉ fs := by
  simp only [plan_destination, hh, Option.isSome_none, Bool.false_eq_true, if_false]
  set stem := (splitStemExt name).1 with hstem
  set suf := (splitStemExt name).2 with hsuf
  set ext := (if suf = "" then ".flf" else suf) with hext
  by_cases hc : pathJoin dir (stem ++ ext) ∈ fs
  · exact ⟨_, .COPY_RENAMED, true, by simp [hc], Or.inr rfl,
      next_versioned_fresh fs dir stem ext⟩
  · exact ⟨_, .COPY, false, by simp [hc], Or.inl rfl, hc⟩

/-- `step` on a candidate whose fingerprinting fails: the state is
untouched and an `ERROR_HASH` record is emitted. -/
theorem step_hash_error (dir : String) (st : RunState) (src : InFile) (e : String)
    (hsrc : src.hashResult = .error e) :
    step dir st src = (st, ⟨src.name, .A_ERROR_HASH, none, some e⟩) := by
  simp [step, hsrc]

/-- `step` on a duplicate candidate: only the skip counter moves and a
`SKIP_DUPLICATE` record is emitted. -/
theorem step_skip (dir : String) (st : RunState) (src : InFile) (h : String)
    (hsrc : src.hashResult = .ok h) (hh : (st.index.lookup h).isSome) :
    step dir st src =
      ({ st with skipped := st.skipped + 1 }, ⟨src.name, .A_SKIP_DUPLICATE, none, none⟩) := by
  simp [step, hsrc, plan_skip _ _ _ _ _ hh]

/-- `step` on a candidate whose copy fails: the state is untouched and an
`ERROR_COPY` record carrying the error is emitted. -/
theorem step_copy_error (dir : String) (st : RunState) (src : InFile) (h e : String)
    (hsrc : src.hashResult = .ok h) (hh : st.index.lookup h = none)
    (hcp : src.copyError = some e) :
    step dir st src = (st, ⟨src.name, .A_ERROR_COPY, none, some e⟩) := by
  obtain ⟨dest, act, nc, heq, hact, -⟩ :=
    plan_not_dup (st.fs.map Prod.fst) dir src.name h st.index hh
  rcases hact with rfl | rfl <;> simp [step, hsrc, heq, hcp]

/-- `step` on a successfully copied candidate: a fresh destination path is
added to the tree, the index and placed list, and exactly one of the
copied/renamed counters moves. -/
theorem step_copy_ok (dir : String) (st : RunState) (src : InFile) (h : String)
    (hsrc : src.hashResult = .ok h) (hh : st.index.lookup h = none)
    (hcp : src.copyError = none) :
    ∃ dest, dest ∉ st.fs.map Prod.fst ∧
      (step dir st src =
        ({ st with fs := (dest, h) :: st.fs, index := (h, dest) :: st.index,
                   placed := (dest, h) :: st.placed, copied := st.copied + 1 },
         ⟨src.name, .A_COPY, some dest, none⟩) ∨
       step dir st src =
        ({ st with fs := (dest, h) :: st.fs, index := (h, dest) :: st.index,
                   placed := (dest, h) :: st.placed, renamed := st.renamed + 1 },
         ⟨src.name, .A_COPY_RENAMED, some dest, none⟩)) := by
  obtain ⟨dest, act, nc, heq, hact, hfresh⟩ :=
    plan_not_dup (st.fs.map Prod.fst) dir src.name h st.index hh
  refine ⟨dest, hfresh, ?_⟩
  rcases hact with rfl | rfl
  · exact Or.inl (by simp [step, hsrc, heq, hcp])
  · exact Or.inr (by simp [step, hsrc, heq, hcp])

/-- Unfolding `List.lookup` one pair at a time. -/
theorem lookup_cons (k v a : String) (l : List (String × String)) :
    ((k, v) :: l).lookup a = if a = k then some v else l.lookup a := by
  simp only [List.lookup]
  by_cases h : a = k
  · simp [h]
  · simp [h, beq_false_of_ne h]

/-- A lookup that succeeds still succeeds after an insertion at the front. -/
theorem lookup_cons_isSome_of_isSome (k v a : String) (l : List (String × String))
    (h : (l.lookup a).isSome) : (((k, v) :: l).lookup a).isSome := by
  rw [lookup_cons]
  by_cases hak : a = k <;> simp [hak, h]

/-- The generic preservation principle for the executor loop: any state
predicate preserved by a skip and by a successful copy to a fresh path is
an invariant of `process_inputs` (hash and copy failures leave the state
unchanged). -/
theorem process_ind (dir : String) (P : RunState → Prop)
    (hskip : ∀ st : RunState, P st → P { st with skipped := st.skipped + 1 })
    (hplace : ∀ (st : RunState) (dest h : String), P st → st.index.lookup h = none →
      dest ∉ st.fs.map Prod.fst →
      (P { st with fs := (dest, h) :: st.fs, index := (h, dest) :: st.index,
                   placed := (dest, h) :: st.placed, copied := st.copied + 1 } ∧
       P { st with fs := (dest, h) :: st.fs, index := (h, dest) :: st.index,
                   placed := (dest, h) :: st.placed, renamed := st.renamed + 1 })) :
    ∀ (inputs : List InFile) (st : RunState), P st →
      P (process_inputs dir st inputs).1 := by
  intro inputs
  induction inputs with
  | nil => intro st h; simpa [process_inputs] using h
  | cons f rest ih =>
    intro st hP
    simp only [process_inputs]
    apply ih
    cases hsrc : f.hashResult with
    | error e => rw [step_hash_error dir st f e hsrc]; exact hP
    | ok h =>
      cases hidx : st.index.lookup h with
      | some p =>
        have hs : (st.index.lookup h).isSome := by simp [hidx]
        rw [step_skip dir st f h hsrc hs]
        exact hskip st hP
      | none =>
        cases hcp : f.copyError with
        | some e =>
          rw [step_copy_error dir st f h e hsrc hidx hcp]
          exact hP
        | none =>
          obtain ⟨dest, hfresh, hor⟩ := step_copy_ok dir st f h hsrc hidx hcp
          rcases hor with heq | heq
          · rw [heq]; exact (hplace st dest h hP hidx hfresh).1
          · rw [heq]; exact (hplace st dest h hP hidx hfresh).2

/-! ## Claims -/

/-- Claim C1: no content duplication within a run.  The digests of the
files placed by the engine are pairwise distinct, and every placed digest
was absent from the initial index (a candidate whose digest is already a
key, including keys inserted after earlier copies in the same run, is
skipped and nothing is written). -/
theorem no_content_duplication (dir : String) (fs0 idx0 : List (String × String))
    (inputs : List InFile) :
    ((process_inputs dir (initState fs0 idx0) inputs).1.placed.map Prod.snd).Nodup ∧
    ∀ e ∈ (process_inputs dir (initState fs0 idx0) inputs).1.placed,
      idx0.lookup e.2 = none := by
  have main := process_ind dir
    (fun st => (st.placed.map Prod.snd).Nodup ∧
      (∀ e ∈ st.placed, (st.index.lookup e.2).isSome) ∧
      (∀ e ∈ st.placed, idx0.lookup e.2 = none) ∧
      (∀ a : String, (idx0.lookup a).isSome → (st.index.lookup a).isSome))
    (fun _ hP => hP)
    (fun st dest h hP hidx _ => by
      obtain ⟨hnd, hsome, hnone, hmono⟩ := hP
      have hnotmem : h ∉ st.placed.map Prod.snd := by
        intro hmem
        obtain ⟨e, he, heq⟩ := List.mem_map.mp hmem
        have hs := hsome e he
        rw [heq, hidx] at hs
        simp at hs
      have hidx0 : idx0.lookup h = none := by
        by_contra hne
        have hs := hmono h (Option.isSome_iff_ne_none.mpr hne)
        rw [hidx] at hs
        simp at hs
      have hc : (((dest, h) :: st.placed).map Prod.snd).Nodup ∧
          (∀ e ∈ (dest, h) :: st.placed, (((h, dest) :: st.index).lookup e.2).isSome) ∧
          (∀ e ∈ (dest, h) :: st.placed, idx0.lookup e.2 = none) ∧
          (∀ a : String, (idx0.lookup a).isSome →
            ((((h, dest) :: st.index)).lookup a).isSome) := by
        refine ⟨?_, ?_, ?_, ?_⟩
        · rw [List.map_cons]
          exact List.nodup_cons.mpr ⟨hnotmem, hnd⟩
        · intro e he
          rcases List.mem_cons.mp he with rfl | he
          · simp [lookup_cons]
          · exact lookup_cons_isSome_of_isSome _ _ _ _ (hsome e he)
        · intro e he
          rcases List.mem_cons.mp he with rfl | he
          · exact hidx0
          · exact hnone e he
        · intro a ha
          exact lookup_cons_isSome_of_isSome _ _ _ _ (hmono a ha)
      exact ⟨hc, hc⟩)
    inputs (initState fs0 idx0)
    ⟨by simp [initState], by simp [initState], by simp [initState],
      fun a ha => ha⟩
  exact ⟨main.1, main.2.2.1⟩

/-- Evaluation of claim C1 at a concrete run: the one placed file's
digest was not a key of the initial index. -/
theorem no_content_duplication_witness :
    [("h0", "out/x.flf")].lookup (Prod.snd (("out/a.flf", "h1") : String × String)) = none :=
  (no_content_duplication "out" [] [("h0", "out/x.flf")]
    [⟨"a.flf", Except.ok "h1", none⟩]).2 ("out/a.flf", "h1") (by decide)

/-- Claim C2: no overwrite.  The paths written by a run are pairwise
distinct and disjoint from the paths that existed before the run: every
destination path chosen by the planner is absent from the tree at the
moment of the copy. -/
theorem no_overwrite (dir : String) (fs0 idx0 : List (String × String))
    (inputs : List InFile) :
    ((process_inputs dir (initState fs0 idx0) inputs).1.placed.map Prod.fst).Nodup ∧
    ∀ p ∈ (process_inputs dir (initState fs0 idx0) inputs).1.placed.map Prod.fst,
      p ∉ fs0.map Prod.fst := by
  have main := process_ind dir
    (fun st => st.fs = st.placed ++ fs0 ∧
      (st.placed.map Prod.fst).Nodup ∧
      ∀ p ∈ st.placed.map Prod.fst, p ∉ fs0.map Prod.fst)
    (fun _ hP => hP)
    (fun st dest h hP _ hfresh => by
      obtain ⟨hfs, hnd, hdisj⟩ := hP
      rw [hfs, List.map_append, List.mem_append] at hfresh
      push_neg at hfresh
      obtain ⟨hfresh1, hfresh2⟩ := hfresh
      have hc : (dest, h) :: st.fs = ((dest, h) :: st.placed) ++ fs0 ∧
          ((((dest, h) :: st.placed)).map Prod.fst).Nodup ∧
          ∀ p ∈ (((dest, h) :: st.placed)).map Prod.fst, p ∉ fs0.map Prod.fst := by
        refine ⟨by rw [hfs]; rfl, ?_, ?_⟩
        · rw [List.map_cons]
          exact List.nodup_cons.mpr ⟨hfresh1, hnd⟩
        · intro p hp
          rcases List.mem_cons.mp hp with rfl | hp
          · exact hfresh2
          · exact hdisj p hp
      exact ⟨hc, hc⟩)
    inputs (initState fs0 idx0)
    ⟨by simp [initState], by simp [initState], by simp [initState]⟩
  exact ⟨main.2.1, main.2.2⟩

/-- Evaluation of claim C2 at a concrete run: the path written next to an
existing tree avoids every pre-existing path. -/
theorem no_overwrite_witness :
    ("out/a_v02.flf" : String) ∉ ([("out/a.flf", "hY")].map Prod.fst) :=
  (no_overwrite "out" [("out/a.flf", "hY")]
    [("hY", "out/a.flf")] [⟨"a.flf", Except.ok "hZ", none⟩]).2
    "out/a_v02.flf" (by decide)

/-- Claim C3: versioned-name minimality.  The versioned name chosen on a
collision is `{stem}_v{n:02d}{ext}` for the least `n ≥ 2` whose path is
free (ascending scan from 2); in the spec's scenario — destination holding
`a.flf` and `a_v02.flf`, source `a.flf` with a third content — the planner
answers `COPY_RENAMED` to `a_v03.flf`. -/
theorem versioned_name_minimality :
    (∀ (fs : List String) (dir stem ext : String),
      ∃ n, 2 ≤ n ∧ next_versioned_name fs dir stem ext = versionedName stem n ext ∧
        pathJoin dir (versionedName stem n ext) ∉ fs ∧
        ∀ m, 2 ≤ m → m < n → pathJoin dir (versionedName stem m ext) ∈ fs) ∧
    plan_destination ["out/a.flf", "out/a_v02.flf"] "out" "a.flf" "hZ"
        [("hY", "out/a.flf"), ("hQ", "out/a_v02.flf")]
      = (some "out/a_v03.flf", .COPY_RENAMED, true, false) :=
  ⟨next_versioned_spec, by decide⟩

/-- Evaluation of claim C3 at a concrete destination directory. -/
theorem versioned_name_minimality_witness :
    ∃ n, 2 ≤ n ∧
      next_versioned_name ["o/a_v02.flf"] "o" "a" ".flf" = versionedName "a" n ".flf" ∧
      pathJoin "o" (versionedName "a" n ".flf") ∉ ["o/a_v02.flf"] ∧
      ∀ m, 2 ≤ m → m < n → pathJoin "o" (versionedName "a" m ".flf") ∈ ["o/a_v02.flf"] :=
  versioned_name_minimality.1 ["o/a_v02.flf"] "o" "a" ".flf"

/-- Two filesystem states that agree on the paths under the target
directory give `next_versioned_name` the same answer. -/
theorem next_versioned_congr (fs fs' : List String) (dir stem ext : String)
    (agree : ∀ s : String, pathJoin dir s ∈ fs ↔ pathJoin dir s ∈ fs') :
    next_versioned_name fs dir stem ext = next_versioned_name fs' dir stem ext := by
  obtain ⟨n, hn2, heq, hf, hmin⟩ := next_versioned_spec fs dir stem ext
  obtain ⟨n', hn2', heq', hf', hmin'⟩ := next_versioned_spec fs' dir stem ext
  rw [heq, heq']
  have hnn : n = n' := by
    by_contra hne
    rcases Nat.lt_or_ge n n' with hlt | hge
    · exact hf ((agree _).mpr (hmin' n hn2 hlt))
    · exact hf' ((agree _).mp (hmin n' hn2' (by omega)))
  rw [hnn]

/-- Claim C8, corrected: the planner's decision is *not* a function of its
four explicit arguments alone — it also reads the filesystem through the
`Path.exists` checks.  Two evaluations with identical `destination_root`,
`candidate_name`, `candidate_digest` and `index` but a different
filesystem state can differ. -/
theorem planner_purity_counterexample :
    plan_destination [] "out" "a.flf" "h1" [] ≠
      plan_destination ["out/a.flf"] "out" "a.flf" "h1" [] := by decide

/-- Claim C8, amended: the planner is pure in its four arguments plus the
name-occupancy of the destination target directory — its decision depends
on mutable state only through which joined paths under `destination_root`
exist, so two evaluations whose filesystem states agree there are equal. -/
theorem planner_state_dependence (fs fs' : List String) (dir name h : String)
    (idx : List (String × String))
    (agree : ∀ s : String, pathJoin dir s ∈ fs ↔ pathJoin dir s ∈ fs') :
    plan_destination fs dir name h idx = plan_destination fs' dir name h idx := by
  by_cases hh : (idx.lookup h).isSome
  · rw [plan_skip fs dir name h idx hh, plan_skip fs' dir name h idx hh]
  · have hnone : idx.lookup h = none := Option.not_isSome_iff_eq_none.mp hh
    simp only [plan_destination, hnone, Option.isSome_none, Bool.false_eq_true, if_false]
    set stem := (splitStemExt name).1 with hstem
    set suf := (splitStemExt name).2 with hsuf
    set ext := (if suf = "" then ".flf" else suf) with hext
    have hmem := agree (stem ++ ext)
    by_cases hc : pathJoin dir (stem ++ ext) ∈ fs
    · rw [if_pos hc, if_pos (hmem.mp hc), next_versioned_congr fs fs' dir stem ext agree]
    · rw [if_neg hc, if_neg (fun hx => hc (hmem.mpr hx))]

/-- Evaluation of claim C8's amended statement at a concrete state. -/
theorem planner_state_dependence_witness :
    plan_destination ["out/a.flf"] "out" "a.flf" "h1" [] =
      plan_destination ["out/a.flf"] "out" "a.flf" "h1" [] :=
  planner_state_dependence ["out/a.flf"] ["out/a.flf"] "out" "a.flf" "h1" []
    (fun _ => Iff.rfl)

/-- Claim C7: self-ingestion exclusion.  When the destination root lies
inside the source root and scanning is recursive, no enumerated candidate
lies under the destination root: the whole subtree is excluded. -/
theorem self_ingestion_exclusion (entries : List (List String × Bool))
    (in_dir out_dir : List String)
    (hnest : is_relative_to out_dir in_dir = true) :
    ∀ p ∈ iter_font_files entries (main_exclude true in_dir out_dir),
      is_relative_to p out_dir = false := by
  intro p hp
  have hexc : main_exclude true in_dir out_dir = some out_dir := by
    simp [main_exclude, hnest]
  rw [hexc] at hp
  obtain ⟨e, _, he⟩ := List.mem_filterMap.mp hp
  dsimp only at he
  cases hrel : is_relative_to e.1 out_dir with
  | true => rw [hrel] at he; simp at he
  | false =>
    rw [hrel] at he
    simp only [Bool.false_eq_true, if_false] at he
    cases hfont : is_allowed_font e.2 (e.1.getLastD "") with
    | true =>
      rw [hfont] at he
      simp only [if_true] at he
      rw [← Option.some.inj he]
      exact hrel
    | false => rw [hfont] at he; simp at he

/-- Evaluation of claim C7 at a concrete walk: a font outside the nested
destination survives enumeration and is not under the destination. -/
theorem self_ingestion_exclusion_witness :
    is_relative_to ["src", "a.flf"] ["src", "out"] = false :=
  self_ingestion_exclusion
    [(["src", "a.flf"], true), (["src", "out", "b.flf"], true)]
    ["src"] ["src", "out"] (by decide) ["src", "a.flf"] (by decide)

/-- Claim C5, counterexample: the spec's exit condition does not match the
code.  With a valid source root, distinct roots, and a destination root
that is *not* an existing directory (`outIsDir = false`, which the claim
calls invalid), the program does not abort — `main` never validates
`--out`, it creates it — so «error exit ↔ a root is invalid or roots are
identical» is false at this input. -/
theorem exit_behavior_counterexample :
    ¬ ((main_run true false false "out" [] []).isNone = true ↔
        spec_abort_condition true false false = true) := by decide

/-- Claim C5, amended: the program terminates with an error exit before
touching any file iff the *source* root is not an existing directory or
the two roots are identical; the destination root is never validated (a
missing one is created).  Otherwise the run always completes and reports
the summary counters of the full processing. -/
theorem exit_behavior (inIsDir outIsDir samePath : Bool) (dir : String)
    (fs0 : List (String × String)) (inputs : List InFile) :
    (main_run inIsDir outIsDir samePath dir fs0 inputs = none ↔
      (inIsDir = false ∨ samePath = true)) ∧
    (main_run inIsDir outIsDir samePath dir fs0 inputs = none ∨
      main_run inIsDir outIsDir samePath dir fs0 inputs =
        some ((run dir fs0 inputs).1.copied, (run dir fs0 inputs).1.renamed,
          (run dir fs0 inputs).1.skipped)) := by
  cases inIsDir <;> cases samePath <;> simp [main_run]

/-- Each processed candidate appends exactly one audit record: no file's
failure aborts the run. -/
theorem process_audit_length (dir : String) :
    ∀ (inputs : List InFile) (st : RunState),
      (process_inputs dir st inputs).2.length = inputs.length := by
  intro inputs
  induction inputs with
  | nil => intro st; simp [process_inputs]
  | cons f rest ih => intro st; simp [process_inputs, ih]

/-- Claim C6: per-file error recording and counting.  A candidate whose
fingerprinting fails contributes an `ERROR_HASH` record and nothing else
(state, counters and the rest of the run are as if it were absent); a
candidate whose copy fails contributes an `ERROR_COPY` record carrying the
underlying error and nothing else; and every run emits exactly one record
per candidate — no failure aborts processing. -/
theorem per_file_error_isolation (dir : String) (st : RunState) (rest : List InFile)
    (name e h : String) (ce : Option String)
    (hplan : st.index.lookup h = none) :
    (process_inputs dir st (⟨name, Except.error e, ce⟩ :: rest) =
      ((process_inputs dir st rest).1,
        ⟨name, .A_ERROR_HASH, none, some e⟩ :: (process_inputs dir st rest).2)) ∧
    (process_inputs dir st (⟨name, Except.ok h, some e⟩ :: rest) =
      ((process_inputs dir st rest).1,
        ⟨name, .A_ERROR_COPY, none, some e⟩ :: (process_inputs dir st rest).2)) ∧
    (∀ inputs : List InFile, (process_inputs dir st inputs).2.length = inputs.length) := by
  refine ⟨?_, ?_, fun inputs => process_audit_length dir inputs st⟩
  · simp only [process_inputs,
      step_hash_error dir st ⟨name, Except.error e, ce⟩ e rfl]
  · simp only [process_inputs,
      step_copy_error dir st ⟨name, Except.ok h, some e⟩ h e rfl hplan rfl]

/-- Evaluation of claim C6 at a concrete run: one record per candidate. -/
theorem per_file_error_isolation_witness :
    (process_inputs "out" (initState [] [])
      [⟨"a.flf", Except.error "boom", none⟩,
       ⟨"b.flf", Except.ok "h1", some "disk"⟩]).2.length = 2 :=
  (per_file_error_isolation "out" (initState [] []) [] "a.flf" "boom" "h1" none
    (by decide)).2.2
    [⟨"a.flf", Except.error "boom", none⟩, ⟨"b.flf", Except.ok "h1", some "disk"⟩]

/-- Claim C10: failure atomicity of the index.  A candidate whose copy
fails leaves the run state — destination tree, index, placed list and all
three counters — exactly as it was, so the processing of every subsequent
candidate is identical to what it would be had the failed candidate not
been processed at all. -/
theorem copy_failure_atomicity (dir : String) (st : RunState) (rest : List InFile)
    (name h e : String) (hplan : st.index.lookup h = none) :
    ((step dir st ⟨name, Except.ok h, some e⟩).1 = st ∧
     (process_inputs dir st (⟨name, Except.ok h, some e⟩ :: rest)).1 =
       (process_inputs dir st rest).1) := by
  constructor
  · rw [step_copy_error dir st ⟨name, Except.ok h, some e⟩ h e rfl hplan rfl]
  · simp only [process_inputs,
      step_copy_error dir st ⟨name, Except.ok h, some e⟩ h e rfl hplan rfl]

/-- Evaluation of claim C10 at a concrete run where a later candidate has
the same content as the failed one: the later candidate is still copied,
not falsely skipped. -/
theorem copy_failure_atomicity_witness :
    ((step "out" (initState [] []) ⟨"a.flf", Except.ok "h1", some "disk"⟩).1 =
      initState [] [] ∧
     (process_inputs "out" (initState [] [])
        (⟨"a.flf", Except.ok "h1", some "disk"⟩ :: [⟨"b.flf", Except.ok "h1", none⟩])).1 =
       (process_inputs "out" (initState [] []) [⟨"b.flf", Except.ok "h1", none⟩]).1) :=
  copy_failure_atomicity "out" (initState [] []) [⟨"b.flf", Except.ok "h1", none⟩]
    "a.flf" "h1" "disk" (by decide)

/-- A lookup misses exactly when the key is absent. -/
theorem lookup_eq_none_iff (l : List (String × String)) (a : String) :
    l.lookup a = none ↔ a ∉ l.map Prod.fst := by
  induction l with
  | nil => simp
  | cons kv rest ih =>
    obtain ⟨k, v⟩ := kv
    rw [lookup_cons]
    by_cases hak : a = k <;> simp [hak, ih]

/-- The digest-to-path table built by the indexing loop looks up, for any
digest, the first successfully hashed file carrying it (generalised over
the accumulator). -/
theorem lookup_index_fold (h : String) :
    ∀ (files : List (String × Option String)) (idx : List (String × String)),
      (index_fold idx files).lookup h =
        (idx.lookup h).or
          ((files.filterMap fun e => if e.2 = some h then some e.1 else none).head?) := by
  intro files
  induction files with
  | nil => intro idx; simp [index_fold, Option.or_none]
  | cons e rest ih =>
    intro idx
    obtain ⟨p, h?⟩ := e
    match h? with
    | none => simpa [index_fold] using ih idx
    | some h' =>
      by_cases hsome : (idx.lookup h').isSome
      · simp only [index_fold, hsome, if_true]
        rw [ih idx]
        by_cases hh : h' = h
        · subst hh
          obtain ⟨v, hv⟩ := Option.isSome_iff_exists.mp hsome
          simp [hv]
        · simp [hh]
      · simp only [index_fold, hsome, Bool.false_eq_true, if_false]
        rw [ih (idx ++ [(h', p)]), List.lookup_append]
        have hnone : idx.lookup h' = none := Option.not_isSome_iff_eq_none.mp hsome
        by_cases hh : h' = h
        · subst hh
          simp [hnone, lookup_cons]
        · have hone : List.lookup h [(h', p)] = none := by
            rw [lookup_cons]
            have hne : ¬(h = h') := fun hc => hh hc.symm
            simp [hne]
          simp [hone, Option.or_none, hh]

/-- The indexing loop never duplicates a digest key (generalised over the
accumulator). -/
theorem index_fold_keys_nodup :
    ∀ (files : List (String × Option String)) (idx : List (String × String)),
      (idx.map Prod.fst).Nodup → ((index_fold idx files).map Prod.fst).Nodup := by
  intro files
  induction files with
  | nil => intro idx hnd; simpa [index_fold] using hnd
  | cons e rest ih =>
    intro idx hnd
    obtain ⟨p, h?⟩ := e
    match h? with
    | none => exact ih idx hnd
    | some h' =>
      by_cases hsome : (idx.lookup h').isSome
      · simp only [index_fold, hsome, if_true]
        exact ih idx hnd
      · simp only [index_fold, hsome, Bool.false_eq_true, if_false]
        apply ih
        have hnotin : h' ∉ idx.map Prod.fst :=
          (lookup_eq_none_iff idx h').mp (Option.not_isSome_iff_eq_none.mp hsome)
        rw [List.map_append]
        simp [List.nodup_append, hnd, hnotin]

/-- Claim C9: first-wins destination indexing.  After the destination walk
the index has pairwise distinct digest keys — exactly one entry per digest
that occurs among the successfully hashed files — and the path it retains
for a digest is the first file of the walk carrying that digest; later
same-digest files never replace it. -/
theorem index_first_wins (files : List (String × Option String)) :
    ((index_existing files).map Prod.fst).Nodup ∧
    ∀ h : String, (index_existing files).lookup h =
      (files.filterMap fun e => if e.2 = some h then some e.1 else none).head? := by
  constructor
  · exact index_fold_keys_nodup files [] (by simp)
  · intro h
    rw [index_existing, lookup_index_fold h files []]
    simp

/-- A digest is a key of the freshly built destination index iff it is
the digest of some destination file (every file hashes successfully
here, since the tree records its digests). -/
theorem index_existing_digest_mem (fs1 : List (String × String)) (a : String) :
    ((index_existing (fs1.map fun e => (e.1, some e.2))).lookup a).isSome = true ↔
      a ∈ fs1.map Prod.snd := by
  rw [index_existing, lookup_index_fold a _ []]
  simp only [List.lookup_nil, Option.none_or]
  rw [List.filterMap_map]
  constructor
  · intro hs
    by_contra hmem
    have hnil : (fs1.filterMap
        ((fun e => if e.2 = some a then some e.1 else none) ∘ fun e => (e.1, some e.2)))
        = [] := by
      apply List.filterMap_eq_nil_iff.mpr
      intro e he
      have hne : e.2 ≠ a := fun hc => hmem (List.mem_map.mpr ⟨e, he, hc⟩)
      simp [Function.comp, hne]
    rw [hnil] at hs
    simp at hs
  · intro ha
    obtain ⟨e, he, hea⟩ := List.mem_map.mp ha
    apply List.head?_isSome.mpr
    intro hnil
    have := List.filterMap_eq_nil_iff.mp hnil e he
    simp [Function.comp, hea] at this

/-- A digest present in the tree stays present through processing. -/
theorem process_fs_digest_mono (dir x : String) (inputs : List InFile)
    (st : RunState) (hx : x ∈ st.fs.map Prod.snd) :
    x ∈ (process_inputs dir st inputs).1.fs.map Prod.snd :=
  process_ind dir (fun s => x ∈ s.fs.map Prod.snd)
    (fun _ hP => hP)
    (fun _ _ _ hP _ _ => ⟨List.mem_cons_of_mem _ hP, List.mem_cons_of_mem _ hP⟩)
    inputs st hx

/-- One executor step preserves «every index key is a digest of the
tree». -/
theorem step_preserves_cover (dir : String) (st : RunState) (f : InFile)
    (hinv : ∀ a : String, (st.index.lookup a).isSome → a ∈ st.fs.map Prod.snd) :
    ∀ a : String, ((step dir st f).1.index.lookup a).isSome →
      a ∈ (step dir st f).1.fs.map Prod.snd := by
  have hgen := process_ind dir
    (fun s => ∀ a : String, (s.index.lookup a).isSome → a ∈ s.fs.map Prod.snd)
    (fun _ hP => hP)
    (fun s dest h hP _ _ => by
      have hc : ∀ a : String, (((h, dest) :: s.index).lookup a).isSome →
          a ∈ ((dest, h) :: s.fs).map Prod.snd := by
        intro a ha
        rw [lookup_cons] at ha
        by_cases hah : a = h
        · subst hah; exact List.mem_cons_self _ _
        · rw [if_neg hah] at ha
          exact List.mem_cons_of_mem _ (hP a ha)
      exact ⟨hc, hc⟩)
    [f] st hinv
  simpa [process_inputs] using hgen

/-- After a run in which hashing and copying succeed, the digest of every
input is the digest of some file of the destination tree: it was either
placed by the run or already present (the reason it was skipped). -/
theorem run_covers_digests (dir : String) :
    ∀ (inputs : List InFile) (st : RunState),
      (∀ a : String, (st.index.lookup a).isSome → a ∈ st.fs.map Prod.snd) →
      ∀ f ∈ inputs, ∀ h : String, f.hashResult = Except.ok h → f.copyError = none →
        h ∈ (process_inputs dir st inputs).1.fs.map Prod.snd := by
  intro inputs
  induction inputs with
  | nil => intro st _ f hf; simp at hf
  | cons g rest ih =>
    intro st hinv f hf h hh hcp
    rcases List.mem_cons.mp hf with rfl | hf
    · simp only [process_inputs]
      apply process_fs_digest_mono
      cases hidx : st.index.lookup h with
      | some p =>
        have hs : (st.index.lookup h).isSome := by simp [hidx]
        rw [step_skip dir st f h hh hs]
        exact hinv h hs
      | none =>
        obtain ⟨dest, _, hor⟩ := step_copy_ok dir st f h hh hidx hcp
        rcases hor with heq | heq <;> rw [heq] <;> exact List.mem_cons_self _ _
    · simp only [process_inputs]
      exact ih (step dir st g).1 (step_preserves_cover dir st g hinv) f hf h hh hcp

/-- When every input's digest is already a key of the index, the run only
skips: the state is unchanged except the skip counter, which counts every
input. -/
theorem process_all_skip (dir : String) :
    ∀ (inputs : List InFile) (st : RunState),
      (∀ f ∈ inputs, ∃ h : String, f.hashResult = Except.ok h ∧
        (st.index.lookup h).isSome) →
      (process_inputs dir st inputs).1 =
        { st with skipped := st.skipped + inputs.length } := by
  intro inputs
  induction inputs with
  | nil => intro st _; simp [process_inputs]
  | cons g rest ih =>
    intro st hall
    obtain ⟨h, hh, hs⟩ := hall g (List.mem_cons_self g rest)
    simp only [process_inputs]
    rw [step_skip dir st g h hh hs]
    have hrest : ∀ f ∈ rest, ∃ h : String, f.hashResult = Except.ok h ∧
        ((({ st with skipped := st.skipped + 1 } : RunState)).index.lookup h).isSome :=
      fun f hf => hall f (List.mem_cons_of_mem g hf)
    rw [ih { st with skipped := st.skipped + 1 } hrest]
    have harith : st.skipped + 1 + rest.length = st.skipped + (g :: rest).length := by
      simp [List.length_cons]; omega
    calc ({ st with skipped := st.skipped + 1 + rest.length } : RunState)
        = { st with skipped := st.skipped + (g :: rest).length } := by rw [harith]

/-- Claim C4: idempotence.  If a run succeeds on every file (hashing and
copying never fail), a second run over the same source list against the
resulting destination tree copies and renames nothing and skips every one
of the N processed inputs. -/
theorem idempotence (dir : String) (fs0 : List (String × String)) (inputs : List InFile)
    (hok : ∀ f ∈ inputs, (∃ h : String, f.hashResult = Except.ok h) ∧
      f.copyError = none) :
    (run dir (run dir fs0 inputs).1.fs inputs).1.copied = 0 ∧
    (run dir (run dir fs0 inputs).1.fs inputs).1.renamed = 0 ∧
    (run dir (run dir fs0 inputs).1.fs inputs).1.skipped = inputs.length := by
  have hinv0 : ∀ a : String,
      (((initState fs0 (index_existing (fs0.map fun e => (e.1, some e.2)))).index.lookup a).isSome) →
      a ∈ (initState fs0 (index_existing (fs0.map fun e => (e.1, some e.2)))).fs.map Prod.snd :=
    fun a ha => (index_existing_digest_mem fs0 a).mp ha
  have hcover : ∀ f ∈ inputs, ∀ h : String, f.hashResult = Except.ok h →
      h ∈ (run dir fs0 inputs).1.fs.map Prod.snd := by
    intro f hf h hh
    exact run_covers_digests dir inputs _ hinv0 f hf h hh (hok f hf).2
  have hall : ∀ f ∈ inputs, ∃ h : String, f.hashResult = Except.ok h ∧
      (((initState (run dir fs0 inputs).1.fs
        (index_existing ((run dir fs0 inputs).1.fs.map fun e => (e.1, some e.2)))).index.lookup h).isSome) := by
    intro f hf
    obtain ⟨⟨h, hh⟩, -⟩ := hok f hf
    exact ⟨h, hh, (index_existing_digest_mem (run dir fs0 inputs).1.fs h).mpr
      (hcover f hf h hh)⟩
  have hfinal := process_all_skip dir inputs _ hall
  simp only [run] at hfinal ⊢
  rw [hfinal]
  simp [initState]

/-- Evaluation of claim C4 at a concrete pair of runs. -/
theorem idempotence_witness :
    (run "out" (run "out" [] [⟨"a.flf", Except.ok "h1", none⟩]).1.fs
      [⟨"a.flf", Except.ok "h1", none⟩]).1.copied = 0 ∧
    (run "out" (run "out" [] [⟨"a.flf", Except.ok "h1", none⟩]).1.fs
      [⟨"a.flf", Except.ok "h1", none⟩]).1.renamed = 0 ∧
    (run "out" (run "out" [] [⟨"a.flf", Except.ok "h1", none⟩]).1.fs
      [⟨"a.flf", Except.ok "h1", none⟩]).1.skipped = 1 :=
  idempotence "out" [] [⟨"a.flf", Except.ok "h1", none⟩]
    (by intro f hf
        simp only [List.mem_singleton] at hf
        subst hf
        exact ⟨⟨"h1", rfl⟩, rfl⟩)

end FigletImporter
